import Mathlib

/-!
Shallow embedding of the preprocessing core of `tab_transformer`
(`src/tab_transformer/core/bank.py`): the `BankPreprocessor.preprocess`
pipeline (categorical index-mapping, two-stage continuous rescaling,
label binarization, column reordering), the `BankPreprocessor.get_dataset`
shuffle-and-split, and the `BankDataset` indexed view.

Modelling conventions:
- A pandas frame is a list of named columns (`Frame`); a column is either
  raw strings (`Col.strs`), raw numerics (`Col.nums`, rationals standing
  for floats), or a mapped column (`Col.opts`) whose entries are
  `Option` rationals, `none` standing for the `NaN` that `pandas.Series.map`
  produces at a key absent from its dict argument.
- Operations that raise in Python (pandas `KeyError` on a missing column,
  sklearn `ValueError` on non-numeric input, `IndexError` on out-of-range
  `iloc`) return `none` at the corresponding `Option` layer.
- `sklearn.RobustScaler` and `sklearn.MinMaxScaler` are modelled per column
  with numpy linear-interpolation percentiles over exact rationals and the
  sklearn zero-scale guard (`handle_zeros`, from
  `sklearn.preprocessing._data._handle_zeros_in_scale`).
- Python `int()` on a nonnegative float is the rational floor; `list(set(...))`
  enumeration order is modelled by an explicit enumeration parameter
  constrained only up to membership (`validCate`), since CPython set order on
  strings is not determined by the set contents across runs.
-/

/-- The literal `cont_features` list of `BankPreprocessor.preprocess` (line 74). -/
def cont_features : List String :=
  ["age", "balance", "day", "duration", "campaign", "pdays", "previous"]

/-- The literal `month_list` of `BankPreprocessor.preprocess` (line 83).
It has 11 entries: the source omits the abbreviation for September. -/
def month_list : List String :=
  ["jan", "feb", "mar", "apr", "may", "jun", "jul", "aug", "oct", "nov", "dec"]

/-- The name of the month column. -/
def monthField : String := "month"

/-- The name of the label column. -/
def labelField : String := "y"

/-- The month dict `{m: i for i, m in enumerate(month_list)}` (line 84), as a
lookup function: a month maps to its position in `month_list`, anything else
to `none` (pandas `.map` yields NaN at keys absent from the dict). -/
def monthMap (v : String) : Option ℕ := month_list.indexOf? v

/-- The label dict `{'yes': 1, 'no': 0}` of line 108 as a lookup: `none` for
any other string (pandas `.map` produces NaN there, it does not raise). -/
def labelMap (v : String) : Option ℕ :=
  if v == "yes" then some 1 else if v == "no" then some 0 else none

/-- First-seen enumeration of the distinct values of a list: the model of
`pandas.Series.unique().tolist()`, which keeps the first occurrence of each
value in row order. -/
def uniqueFirst : List String → List String
  | [] => []
  | x :: xs => x :: uniqueFirst (xs.filter (fun y => y != x))
termination_by l => l.length
decreasing_by
  simp only [List.length_cons]
  exact Nat.lt_succ_of_le (List.length_filter_le _ _)

/-- `all_class = sorted(data[f].unique().tolist())` (line 87): the distinct
raw values of a column in ascending order. -/
def all_class (vals : List String) : List String :=
  List.insertionSort (fun a b => a ≤ b) (uniqueFirst vals)

/-- The per-field dict `{prev: new for new, prev in enumerate(all_class)}`
(line 88): a raw value maps to its position in the sorted distinct list. -/
def classDict (vals : List String) (v : String) : Option ℕ :=
  (all_class vals).indexOf? v

/-- A pandas column of the working frame: raw strings, raw numerics
(rationals standing for floats), or the result of `.map(dict)` where `none`
stands for NaN. -/
inductive Col where
  | strs (vals : List String)
  | nums (vals : List ℚ)
  | opts (vals : List (Option ℚ))
deriving DecidableEq

/-- A pandas DataFrame: named columns in order. -/
abbrev Frame := List (String × Col)

/-- `data[f]`: the first column named `f`, if any (pandas raises `KeyError`
when absent, modelled as `none`). -/
def lookupCol (df : Frame) (f : String) : Option Col :=
  (df.find? (fun p => p.1 == f)).map (fun p => p.2)

/-- `data[f] = series`: replace the column named `f`. -/
def setCol (df : Frame) (f : String) (c : Col) : Frame :=
  df.map (fun p => if p.1 == f then (p.1, c) else p)

/-- The string values of a column (used to build a categorical dict; a
non-string column contributes no dict keys). -/
def strVals : Col → List String
  | .strs vs => vs
  | _ => []

/-- `series.map(dict)` for a dict with string keys and integer values:
string entries go through the lookup (missing key ↦ NaN, i.e. `none`);
non-string entries are never dict keys, so they all become NaN. -/
def mapVals (m : String → Option ℕ) : Col → List (Option ℚ)
  | .strs vs => vs.map (fun v => (m v).map (fun n => (n : ℚ)))
  | .nums vs => vs.map (fun _ => none)
  | .opts vs => vs.map (fun _ => none)

/-- The dict chosen for categorical field `f` (lines 82-88): the fixed
`month_list` dict for the month field, the sorted-distinct-values dict for
every other field. -/
def mapFor (f : String) (c : Col) : String → Option ℕ :=
  if f == monthField then monthMap else classDict (strVals c)

/-- The categorical-mapping loop of lines 81-91: for each field in
`cate_features` order, read the column, build its dict, and write back the
mapped column. A missing column is pandas `KeyError` (`none`). -/
def mapStep (cate : List String) (df : Frame) : Option Frame :=
  cate.foldlM
    (fun d f =>
      (lookupCol d f).map (fun c => setCol d f (Col.opts (mapVals (mapFor f c) c))))
    df

/-- Modelled from the spec: the twelve standard calendar month
abbreviations, the domain over which the claim quantifies ("every calendar
month abbreviation"); the source contains no such list, only the 11-entry
`month_list`. -/
def calendar_month_abbrevs : List String :=
  ["jan", "feb", "mar", "apr", "may", "jun", "jul", "aug", "sep", "oct", "nov", "dec"]

/-- Python `int()` applied to an exact rational: truncation toward zero. -/
def pyInt (q : ℚ) : ℤ := if 0 ≤ q then ⌊q⌋ else -⌊-q⌋

/-- The `points` list of `BankPreprocessor.get_dataset` (lines 123-126):
`int(N * train_frac)` and `int(N * (train_frac + val_frac))`. -/
def splitPoints (n : ℕ) (tr va : ℚ) : ℕ × ℕ :=
  ((pyInt ((n : ℚ) * tr)).toNat, (pyInt ((n : ℚ) * (tr + va))).toNat)

/-- The three `iloc` slices of `BankPreprocessor.get_dataset` (lines 128-132)
over the shuffled frame, as row lists: `[0:points[0]]`, `[points[0]:points[1]]`
and `[points[1]:]`. `reset_index(drop=True)` is the identity on a row list
(positions are dense from 0 by construction). -/
def splitFrame {α : Type} (shuffled : List α) (tr va : ℚ) :
    List α × List α × List α :=
  let p := splitPoints shuffled.length tr va
  (shuffled.take p.1, (shuffled.take p.2).drop p.1, shuffled.drop p.2)

/-- The numpy percentile (default linear interpolation) of an already
sorted column: the value at fractional position (n-1) * q / 100, linearly
interpolated between its two neighbouring entries. -/
def percentileSorted (s : List ℚ) (q : ℚ) : ℚ :=
  let pos : ℚ := ((s.length : ℚ) - 1) * q / 100
  let i : ℕ := (⌊pos⌋).toNat
  let lo := s.getD i 0
  let hi := s.getD (i + 1) lo
  lo + (pos - (i : ℚ)) * (hi - lo)

/-- The numpy percentile of a column: sort, then interpolate. -/
def percentile (l : List ℚ) (q : ℚ) : ℚ :=
  percentileSorted (List.insertionSort (fun a b => a ≤ b) l) q

/-- The sklearn guard `_handle_zeros_in_scale`: a zero scale is replaced by
1 so that the transform divides by a nonzero number. -/
def handle_zeros (s : ℚ) : ℚ := if s = 0 then 1 else s

/-- `sklearn.RobustScaler.fit_transform` on one column (line 96-97, default
settings): subtract the column median and divide by the interquartile range
(75th minus 25th percentile), with the zero-scale guard. -/
def robustScale (l : List ℚ) : List ℚ :=
  l.map (fun x =>
    (x - percentile l 50) / handle_zeros (percentile l 75 - percentile l 25))

/-- The minimum entry of a column (0 for an empty column; sklearn would
produce an empty output there). -/
def listMin : List ℚ → ℚ
  | [] => 0
  | x :: xs => xs.foldl min x

/-- The maximum entry of a column. -/
def listMax : List ℚ → ℚ
  | [] => 0
  | x :: xs => xs.foldl max x

/-- `sklearn.MinMaxScaler.fit_transform` on one column (lines 99-100,
default feature range [0, 1]): subtract the observed minimum and divide by
the observed range, with the zero-scale guard. -/
def minMaxScale (l : List ℚ) : List ℚ :=
  l.map (fun x => (x - listMin l) / handle_zeros (listMax l - listMin l))

/-- `data[cont_features]` restricted to one column:
`sklearn.fit_transform` needs numeric input, so a missing or non-numeric
column is an error (`none`). -/
def getNums (df : Frame) (f : String) : Option (List ℚ) :=
  match lookupCol df f with
  | some (.nums vs) => some vs
  | _ => none

/-- The continuous-scaling step of lines 95-103: gather the continuous
sub-table, apply `RobustScaler.fit_transform` then `MinMaxScaler.fit_transform`
(each fitted per column on its whole input, the second on the output of the
first), drop the original continuous columns and concatenate the scaled
ones at the end of the frame. -/
def scaleStep (df : Frame) : Option Frame :=
  (cont_features.mapM (fun f => (getNums df f).map (fun vs => (f, vs)))).map
    (fun sub =>
      let scaled1 := sub.map (fun p => (p.1, robustScale p.2))
      let scaled2 := scaled1.map (fun p => (p.1, minMaxScale p.2))
      df.filter (fun p => !(cont_features.contains p.1))
        ++ scaled2.map (fun p => (p.1, Col.nums p.2)))

/-- The label-mapping step of line 108: `data['y'] = data['y'].map({...})`. -/
def labelStep (df : Frame) : Option Frame :=
  (lookupCol df labelField).map
    (fun c => setCol df labelField (Col.opts (mapVals labelMap c)))

/-- `data[cate_features + cont_features + ['y']]` (line 110): column
selection in the given order; a missing name is pandas `KeyError`. -/
def selectCols (df : Frame) (names : List String) : Option Frame :=
  names.mapM (fun f => (lookupCol df f).map (fun c => (f, c)))

/-- The `preprocess` pipeline of lines 69-114 on a loaded frame:
categorical mapping, two-stage continuous scaling, label mapping, column
reordering. `cate` is the `cate_features` list, an enumeration of
`list(set(data.columns).difference(set(cont_features)))` with `'y'` removed,
whose order CPython does not pin down (see `validCate`). -/
def preprocess (cate : List String) (df : Frame) : Option Frame := do
  let d1 ← mapStep cate df
  let d2 ← scaleStep d1
  let d3 ← labelStep d2
  selectCols d3 (cate ++ cont_features ++ [labelField])

/-- The admissible values of the `cate_features` list computed on line
75-76: CPython set iteration order over strings varies across interpreter
runs (hash randomization), so only membership is determined by the input:
any duplicate-free enumeration of the columns minus the continuous features
minus the label. -/
def validCate (df : Frame) (enum : List String) : Prop :=
  enum.Nodup ∧
  (∀ f ∈ enum, f ∈ df.map Prod.fst ∧ f ∉ cont_features ∧ f ≠ labelField) ∧
  (∀ f ∈ df.map Prod.fst, f ∉ cont_features → f ≠ labelField → f ∈ enum)

/-- A concrete two-row raw frame with the full bank-marketing column set:
two categorical fields (month containing the unlisted value sep, and job),
the seven continuous fields, and the label. -/
def exampleFrame : Frame :=
  [("job", Col.strs ["admin", "admin"]),
   ("month", Col.strs ["jan", "sep"]),
   ("age", Col.nums [30, 40]),
   ("balance", Col.nums [1, 2]),
   ("day", Col.nums [5, 6]),
   ("duration", Col.nums [100, 200]),
   ("campaign", Col.nums [1, 2]),
   ("pdays", Col.nums [3, 4]),
   ("previous", Col.nums [0, 1]),
   ("y", Col.strs ["yes", "no"])]

/-- The per-row record built by `BankDataset.__getitem__` (lines 38-42):
the categorical sub-row, the continuous sub-row and the label, keyed by
field name. -/
structure Sample (α : Type) where
  cate_features : List (String × Option α)
  cont_features : List (String × Option α)
  labels : Option α

/-- `BankDataset` (lines 16-25): a partition frame (row-major here, since
access is by row) plus the two feature-name lists. -/
structure BankDataset (α : Type) where
  file : List (List (String × α))
  cate_features : List String
  cont_features : List String

/-- Selection of one named cell of a row. -/
def rowLookup {α : Type} (row : List (String × α)) (f : String) : Option α :=
  (row.find? (fun p => p.1 == f)).map (fun p => p.2)

/-- `BankDataset.__len__` (lines 27-28). -/
def BankDataset.len {α : Type} (ds : BankDataset α) : ℕ := ds.file.length

/-- `BankDataset.__getitem__` (lines 30-44) at an integer index (the
`torch.is_tensor` branch only normalizes a tensor index to a plain integer
first): select the row, then build the keyed record from the two
feature lists and the label column; an out-of-range index raises pandas
`IndexError` (`none`). -/
def BankDataset.getitem {α : Type} (ds : BankDataset α) (idx : ℕ) :
    Option (Sample α) :=
  (ds.file.get? idx).map (fun row =>
    { cate_features := ds.cate_features.map (fun f => (f, rowLookup row f)),
      cont_features := ds.cont_features.map (fun f => (f, rowLookup row f)),
      labels := rowLookup row labelField })

/-- A concrete one-row dataset over rational cell values. -/
def exampleDataset : BankDataset ℚ :=
  { file := [[("month", 0), ("age", 1/2), ("y", 1)]],
    cate_features := ["month"],
    cont_features := ["age"] }

-- ### Lemmas -------------------------------------------------------------

lemma indexOf?_isSome_iff_mem (l : List String) (v : String) :
    (l.indexOf? v).isSome ↔ v ∈ l := by
  rw [Option.isSome_iff_ne_none]
  constructor
  · intro h
    by_contra hv
    exact h (List.indexOf?_eq_none_iff.mpr
      (fun x hx hb => hv ((beq_iff_eq.mp hb) ▸ hx)))
  · intro hv h
    exact (List.indexOf?_eq_none_iff.mp h v hv) (by simp)

/-- A raw value outside `month_list` is mapped to NaN. -/
lemma monthMap_not_mem (v : String) (h : v ∉ month_list) : monthMap v = none := by
  by_contra ho
  exact h ((indexOf?_isSome_iff_mem month_list v).mp (Option.isSome_iff_ne_none.mpr ho))

-- ### Claim theorems -----------------------------------------------------

/-- C1, counterexample: the claim is false on the code. The abbreviation
for September is a calendar month abbreviation, yet the fitted month dict
assigns it no code: `series.map` turns it into NaN (`none`) silently, and
no unmapped-value error is raised (the mapped column is returned). -/
theorem month_claim_counterexample :
    ("sep" : String) ∈ calendar_month_abbrevs ∧
    monthMap ("sep") = none ∧
    mapVals monthMap (Col.strs ["jan", "sep"]) = [some 0, none] := by
  refine ⟨by decide, by decide, ?_⟩
  have hj : monthMap ("jan") = some 0 := by decide
  have hs : monthMap ("sep") = none := by decide
  simp [mapVals, hj, hs]

/-- C1, amended: every abbreviation in the 11-entry literal `month_list`
(which omits September) receives as code its fixed position in that list,
determined by the list alone — independent of the input table (the dict for
the month field never reads the column) and of row order (mapping commutes
with row permutation); every raw value outside the list is mapped to NaN
(`none`) rather than raising an error. -/
theorem month_mapping_amended :
    (month_list.map monthMap = (List.range month_list.length).map some) ∧
    (∀ v, v ∉ month_list → monthMap v = none) ∧
    (∀ c, mapFor monthField c = monthMap) ∧
    (∀ col col' : List String, col.Perm col' →
      (col.map monthMap).Perm (col'.map monthMap)) := by
  refine ⟨by decide, monthMap_not_mem, ?_, ?_⟩
  · intro c
    simp [mapFor]
  · intro col col' h
    exact h.map monthMap

/-- Witness for C1 amended, at a concrete row-order swap and a concrete
unmapped value. -/
theorem month_mapping_amended_witness :
    monthMap ("unknown") = none ∧
    ((["mar", "jan"] : List String).map monthMap).Perm
      ((["jan", "mar"] : List String).map monthMap) :=
  ⟨month_mapping_amended.2.1 ("unknown") (by decide),
   month_mapping_amended.2.2.2 _ _ (List.Perm.swap _ _ _)⟩

/-- C2, counterexample: the claim is false on the code. A label value
outside the two-value domain does not fail with an UnrecognizedLabel error:
`series.map({'yes': 1, 'no': 0})` silently turns it into NaN (`none`) and
the mapped column is returned. -/
theorem label_claim_counterexample :
    mapVals labelMap (Col.strs ["yes", "no", "maybe"]) = [some 1, some 0, none] := by
  have h1 : labelMap ("yes") = some 1 := by decide
  have h2 : labelMap ("no") = some 0 := by decide
  have h3 : labelMap ("maybe") = none := by decide
  simp [mapVals, h1, h2, h3]

/-- C2, amended: the label encoding maps the string yes to 1 and the string
no to 0, so on a column whose values all lie in the two-value domain every
encoded label is in 0 or 1; a value outside the domain is mapped to NaN
(`none`) silently instead of failing with an UnrecognizedLabel error. -/
theorem label_mapping_amended :
    labelMap ("yes") = some 1 ∧ labelMap ("no") = some 0 ∧
    (∀ v, v ≠ "yes" → v ≠ "no" → labelMap v = none) ∧
    (∀ col : List String, (∀ u ∈ col, u = "yes" ∨ u = "no") →
      ∀ x ∈ mapVals labelMap (Col.strs col), x = some 1 ∨ x = some 0) := by
  refine ⟨by decide, by decide, ?_, ?_⟩
  · intro v hy hn
    simp [labelMap, hy, hn]
  · intro col hcol x hx
    simp only [mapVals, List.mem_map] at hx
    obtain ⟨u, hu, rfl⟩ := hx
    rcases hcol u hu with rfl | rfl
    · left
      simp [labelMap]
    · right
      simp [labelMap]

/-- Witness for C2 amended: a concrete out-of-domain label becomes NaN, and
on an in-domain concrete column every code is 0 or 1. -/
theorem label_mapping_amended_witness :
    labelMap ("unknown") = none ∧
    (∀ x ∈ mapVals labelMap (Col.strs ["no", "yes"]), x = some 1 ∨ x = some 0) :=
  ⟨label_mapping_amended.2.2.1 ("unknown") (by decide) (by decide),
   label_mapping_amended.2.2.2 ["no", "yes"] (by decide)⟩

lemma mem_uniqueFirst (l : List String) (a : String) : a ∈ uniqueFirst l ↔ a ∈ l := by
  induction l using uniqueFirst.induct with
  | case1 =>
    simp [uniqueFirst]
  | case2 x xs ih =>
    rw [uniqueFirst]
    simp only [List.mem_cons, ih, List.mem_filter, bne_iff_ne, ne_eq]
    constructor
    · rintro (rfl | ⟨h, _⟩)
      · exact Or.inl rfl
      · exact Or.inr h
    · rintro (rfl | h)
      · exact Or.inl rfl
      · by_cases hx : a = x
        · exact Or.inl hx
        · exact Or.inr ⟨h, hx⟩

lemma nodup_uniqueFirst (l : List String) : (uniqueFirst l).Nodup := by
  induction l using uniqueFirst.induct with
  | case1 =>
    simp [uniqueFirst]
  | case2 x xs ih =>
    rw [uniqueFirst]
    refine List.nodup_cons.mpr ⟨?_, ih⟩
    intro hx
    have hmem := (mem_uniqueFirst _ _).mp hx
    rw [List.mem_filter] at hmem
    simp at hmem

lemma perm_all_class (vals : List String) :
    (all_class vals).Perm (uniqueFirst vals) :=
  List.perm_insertionSort _ _

lemma nodup_all_class (vals : List String) : (all_class vals).Nodup :=
  (perm_all_class vals).nodup_iff.mpr (nodup_uniqueFirst vals)

lemma indexOf?_getElem (l : List String) (h : l.Nodup) (i : ℕ) (hi : i < l.length) :
    l.indexOf? l[i] = some i := by
  induction l generalizing i with
  | nil =>
    simp at hi
  | cons x xs ih =>
    rcases i with _ | j
    · simp [List.indexOf?_cons]
    · have hj : j < xs.length := by simpa using hi
      have hne : x ≠ xs[j] := by
        intro he
        exact (List.nodup_cons.mp h).1 (he ▸ List.getElem_mem hj)
      simp only [List.getElem_cons_succ, List.indexOf?_cons, beq_iff_eq]
      rw [if_neg hne, ih (List.nodup_cons.mp h).2 j hj]
      rfl

lemma map_indexOf?_self (l : List String) (h : l.Nodup) :
    l.map (fun v => l.indexOf? v) = (List.range l.length).map some := by
  apply List.ext_getElem
  · simp
  · intro i h1 h2
    simp only [List.getElem_map, List.getElem_range]
    exact indexOf?_getElem l h i (by simpa using h1)

/-- C5: for every categorical field other than the month field, the dict is
built from the distinct raw values sorted in natural ascending order, and it
assigns them the consecutive codes 0..k-1 in that sorted order: mapping the
sorted distinct values back through the dict gives exactly the index range,
so decoding then re-encoding reproduces the sort order, and the codes form
exactly the range 0..(distinct-value-count - 1). -/
theorem feature_mapper_sorted_codes :
    (∀ f c, f ≠ monthField → mapFor f c = classDict (strVals c)) ∧
    (∀ vals : List String,
      (all_class vals).Sorted (fun a b => a ≤ b) ∧
      (∀ v, v ∈ all_class vals ↔ v ∈ vals) ∧
      (all_class vals).length = (uniqueFirst vals).length ∧
      (all_class vals).map (classDict vals)
        = (List.range (all_class vals).length).map some) := by
  constructor
  · intro f c hf
    simp only [mapFor]
    rw [if_neg (by simpa using hf)]
  · intro vals
    refine ⟨List.sorted_insertionSort _ _, ?_, (perm_all_class vals).length_eq, ?_⟩
    · intro v
      rw [(perm_all_class vals).mem_iff, mem_uniqueFirst]
    · exact map_indexOf?_self _ (nodup_all_class vals)

/-- Witness for C5 at a concrete non-month field and concrete column. -/
theorem feature_mapper_sorted_codes_witness :
    mapFor ("job") (Col.strs ["services", "admin"])
      = classDict (strVals (Col.strs ["services", "admin"])) ∧
    (all_class ["services", "admin"]).map (classDict ["services", "admin"])
      = (List.range (all_class ["services", "admin"]).length).map some :=
  ⟨feature_mapper_sorted_codes.1 ("job") (Col.strs ["services", "admin"]) (by decide),
   (feature_mapper_sorted_codes.2 ["services", "admin"]).2.2.2⟩

/-- C3: on the shuffled table the split produces the three contiguous slices
[0, b1), [b1, b2), [b2, N) with b1 and b2 the floors of N * train_frac and
N * (train_frac + val_frac); the slice lengths are b1, b2 - b1 and N - b2 and
sum to N, their concatenation is the shuffled table, and as a multiset the
three partitions together equal the input rows. -/
theorem split_planner_partition {α : Type} (input shuffled : List α) (tr va : ℚ)
    (hperm : shuffled.Perm input) (h1 : 0 ≤ tr) (h2 : 0 ≤ va) (h3 : tr + va ≤ 1) :
    (splitFrame shuffled tr va).1
      = shuffled.take (⌊(shuffled.length : ℚ) * tr⌋).toNat ∧
    (splitFrame shuffled tr va).2.1
      = (shuffled.take (⌊(shuffled.length : ℚ) * (tr + va)⌋).toNat).drop
          (⌊(shuffled.length : ℚ) * tr⌋).toNat ∧
    (splitFrame shuffled tr va).2.2
      = shuffled.drop (⌊(shuffled.length : ℚ) * (tr + va)⌋).toNat ∧
    (splitFrame shuffled tr va).1.length = (⌊(shuffled.length : ℚ) * tr⌋).toNat ∧
    (splitFrame shuffled tr va).2.1.length
      = (⌊(shuffled.length : ℚ) * (tr + va)⌋).toNat
        - (⌊(shuffled.length : ℚ) * tr⌋).toNat ∧
    (splitFrame shuffled tr va).2.2.length
      = shuffled.length - (⌊(shuffled.length : ℚ) * (tr + va)⌋).toNat ∧
    (splitFrame shuffled tr va).1.length + (splitFrame shuffled tr va).2.1.length
      + (splitFrame shuffled tr va).2.2.length = input.length ∧
    (splitFrame shuffled tr va).1
      ++ ((splitFrame shuffled tr va).2.1 ++ (splitFrame shuffled tr va).2.2)
      = shuffled ∧
    ((splitFrame shuffled tr va).1
      ++ ((splitFrame shuffled tr va).2.1 ++ (splitFrame shuffled tr va).2.2)).Perm
      input := by
  have hn0 : (0 : ℚ) ≤ (shuffled.length : ℚ) := Nat.cast_nonneg _
  have hp1 : pyInt ((shuffled.length : ℚ) * tr) = ⌊(shuffled.length : ℚ) * tr⌋ := by
    rw [pyInt, if_pos (mul_nonneg hn0 h1)]
  have hp2 : pyInt ((shuffled.length : ℚ) * (tr + va))
      = ⌊(shuffled.length : ℚ) * (tr + va)⌋ := by
    rw [pyInt, if_pos (mul_nonneg hn0 (add_nonneg h1 h2))]
  have hmono : ⌊(shuffled.length : ℚ) * tr⌋ ≤ ⌊(shuffled.length : ℚ) * (tr + va)⌋ :=
    Int.floor_le_floor (mul_le_mul_of_nonneg_left (le_add_of_nonneg_right h2) hn0)
  have hle : ⌊(shuffled.length : ℚ) * (tr + va)⌋ ≤ (shuffled.length : ℤ) := by
    have hfl := Int.floor_le_floor (mul_le_of_le_one_right hn0 h3)
    rwa [Int.floor_natCast] at hfl
  have hb1b2 : (⌊(shuffled.length : ℚ) * tr⌋).toNat
      ≤ (⌊(shuffled.length : ℚ) * (tr + va)⌋).toNat := by omega
  have hb2n : (⌊(shuffled.length : ℚ) * (tr + va)⌋).toNat ≤ shuffled.length := by omega
  have hb1n : (⌊(shuffled.length : ℚ) * tr⌋).toNat ≤ shuffled.length :=
    le_trans hb1b2 hb2n
  have e1 : (splitFrame shuffled tr va).1
      = shuffled.take (⌊(shuffled.length : ℚ) * tr⌋).toNat := by
    simp [splitFrame, splitPoints, hp1]
  have e2 : (splitFrame shuffled tr va).2.1
      = (shuffled.take (⌊(shuffled.length : ℚ) * (tr + va)⌋).toNat).drop
          (⌊(shuffled.length : ℚ) * tr⌋).toNat := by
    simp [splitFrame, splitPoints, hp1, hp2]
  have e3 : (splitFrame shuffled tr va).2.2
      = shuffled.drop (⌊(shuffled.length : ℚ) * (tr + va)⌋).toNat := by
    simp [splitFrame, splitPoints, hp2]
  have l1 : (splitFrame shuffled tr va).1.length
      = (⌊(shuffled.length : ℚ) * tr⌋).toNat := by
    rw [e1, List.length_take]
    omega
  have l2 : (splitFrame shuffled tr va).2.1.length
      = (⌊(shuffled.length : ℚ) * (tr + va)⌋).toNat
        - (⌊(shuffled.length : ℚ) * tr⌋).toNat := by
    rw [e2, List.length_drop, List.length_take]
    omega
  have l3 : (splitFrame shuffled tr va).2.2.length
      = shuffled.length - (⌊(shuffled.length : ℚ) * (tr + va)⌋).toNat := by
    rw [e3, List.length_drop]
  have happ : (splitFrame shuffled tr va).1
      ++ ((splitFrame shuffled tr va).2.1 ++ (splitFrame shuffled tr va).2.2)
      = shuffled := by
    rw [e1, e2, e3]
    have ht : shuffled.take (⌊(shuffled.length : ℚ) * tr⌋).toNat
        = (shuffled.take (⌊(shuffled.length : ℚ) * (tr + va)⌋).toNat).take
            (⌊(shuffled.length : ℚ) * tr⌋).toNat := by
      rw [List.take_take, min_eq_left hb1b2]
    rw [ht, ← List.append_assoc, List.take_append_drop, List.take_append_drop]
  refine ⟨e1, e2, e3, l1, l2, l3, ?_, happ, ?_⟩
  · rw [l1, l2, l3, ← hperm.length_eq]
    omega
  · rw [happ]
    exact hperm

/-- Witness for C3: the ten-row end-to-end scenario of the spec, with
train_frac 0.7 and val_frac 0.2: the three partitions together are a
permutation of the input and their sizes are 7, 2 and 1. -/
theorem split_planner_partition_witness :
    ((splitFrame (List.range 10) ((7 : ℚ)/10) ((2 : ℚ)/10)).1
      ++ ((splitFrame (List.range 10) ((7 : ℚ)/10) ((2 : ℚ)/10)).2.1
        ++ (splitFrame (List.range 10) ((7 : ℚ)/10) ((2 : ℚ)/10)).2.2)).Perm
      (List.range 10) :=
  (split_planner_partition (List.range 10) (List.range 10) ((7 : ℚ)/10) ((2 : ℚ)/10)
    (List.Perm.refl _) (by norm_num) (by norm_num) (by norm_num)).2.2.2.2.2.2.2.2

/-- C4, counterexample: the claim is false on the code. With train_frac 0.7
and val_frac 0.5 the implicit test fraction is negative, yet `get_dataset`
raises no InvalidRatio error: the split returns normally — the boundary
points are int(4*0.7) = 2 and int(4*1.2) = 4, the val slice clamps at the
table end and the test partition is empty. -/
theorem split_no_validation_counterexample :
    splitFrame ([0, 1, 2, 3] : List ℕ) ((7 : ℚ)/10) ((1 : ℚ)/2)
      = ([0, 1], [2, 3], []) := by
  have ha : (pyInt (((4 : ℕ) : ℚ) * ((7 : ℚ)/10))).toNat = 2 := by
    rw [pyInt, if_pos (by norm_num)]
    norm_num
    decide
  have hb : (pyInt (((4 : ℕ) : ℚ) * ((7 : ℚ)/10 + (1 : ℚ)/2))).toNat = 4 := by
    rw [pyInt, if_pos (by norm_num)]
    norm_num
    decide
  have hlen : ([0, 1, 2, 3] : List ℕ).length = 4 := rfl
  simp only [splitFrame, splitPoints, hlen, ha, hb]
  decide

/-- C4, amended: the split operation performs no ratio validation at all.
Whenever the implicit test fraction 1 - train_frac - val_frac is negative
(with nonnegative train_frac), it returns normally: the test partition is
empty and the train and val partitions together are the whole shuffled
table. -/
theorem split_no_validation_amended {α : Type} (shuffled : List α) (tr va : ℚ)
    (h1 : 0 ≤ tr) (h : 1 ≤ tr + va) :
    (splitFrame shuffled tr va).2.2 = [] ∧
    (splitFrame shuffled tr va).1 ++ (splitFrame shuffled tr va).2.1 = shuffled := by
  have h0 : (0 : ℚ) ≤ tr + va := le_trans zero_le_one h
  have hn0 : (0 : ℚ) ≤ (shuffled.length : ℚ) := Nat.cast_nonneg _
  have hp2 : pyInt ((shuffled.length : ℚ) * (tr + va))
      = ⌊(shuffled.length : ℚ) * (tr + va)⌋ := by
    rw [pyInt, if_pos (mul_nonneg hn0 h0)]
  have hfl : (shuffled.length : ℤ) ≤ ⌊(shuffled.length : ℚ) * (tr + va)⌋ := by
    have hmul := Int.floor_le_floor (le_mul_of_one_le_right hn0 h)
    rwa [Int.floor_natCast] at hmul
  have hb2 : shuffled.length ≤ (pyInt ((shuffled.length : ℚ) * (tr + va))).toNat := by
    rw [hp2]
    omega
  constructor
  · simp only [splitFrame, splitPoints]
    exact List.drop_eq_nil_of_le hb2
  · simp only [splitFrame, splitPoints]
    rw [List.take_of_length_le hb2, List.take_append_drop]

/-- Witness for C4 amended, at a concrete three-row table and fractions
0.7 and 0.5. -/
theorem split_no_validation_amended_witness :
    (splitFrame ([0, 1, 2] : List ℕ) ((7 : ℚ)/10) ((1 : ℚ)/2)).2.2 = [] ∧
    (splitFrame ([0, 1, 2] : List ℕ) ((7 : ℚ)/10) ((1 : ℚ)/2)).1
      ++ (splitFrame ([0, 1, 2] : List ℕ) ((7 : ℚ)/10) ((1 : ℚ)/2)).2.1
      = [0, 1, 2] :=
  split_no_validation_amended [0, 1, 2] ((7 : ℚ)/10) ((1 : ℚ)/2)
    (by norm_num) (by norm_num)

lemma foldl_min_le_init (xs : List ℚ) (a : ℚ) : xs.foldl min a ≤ a := by
  induction xs generalizing a with
  | nil => exact le_refl a
  | cons x xs ih => exact le_trans (ih (min a x)) (min_le_left a x)

lemma foldl_min_le_mem (xs : List ℚ) (a y : ℚ) (hy : y ∈ xs) : xs.foldl min a ≤ y := by
  induction xs generalizing a with
  | nil => simp at hy
  | cons x xs ih =>
    rcases List.mem_cons.mp hy with rfl | h
    · exact le_trans (foldl_min_le_init xs (min a y)) (min_le_right a y)
    · exact ih (min a x) h

lemma listMin_le (l : List ℚ) (y : ℚ) (hy : y ∈ l) : listMin l ≤ y := by
  cases l with
  | nil => simp at hy
  | cons x xs =>
    rcases List.mem_cons.mp hy with rfl | h
    · exact foldl_min_le_init xs y
    · exact foldl_min_le_mem xs x y h

lemma foldl_min_mem (xs : List ℚ) (a : ℚ) :
    xs.foldl min a = a ∨ xs.foldl min a ∈ xs := by
  induction xs generalizing a with
  | nil => exact Or.inl rfl
  | cons x xs ih =>
    rcases ih (min a x) with h | h
    · rcases le_total a x with hax | hax
      · rw [List.foldl_cons, h, min_eq_left hax]
        exact Or.inl rfl
      · rw [List.foldl_cons, h, min_eq_right hax]
        exact Or.inr (List.mem_cons_self x xs)
    · rw [List.foldl_cons]
      exact Or.inr (List.mem_cons_of_mem x h)

lemma listMin_mem (l : List ℚ) (h : l ≠ []) : listMin l ∈ l := by
  cases l with
  | nil => exact absurd rfl h
  | cons x xs =>
    rcases foldl_min_mem xs x with h1 | h1
    · show xs.foldl min x ∈ x :: xs
      rw [h1]
      exact List.mem_cons_self x xs
    · exact List.mem_cons_of_mem x h1

lemma foldl_max_init_le (xs : List ℚ) (a : ℚ) : a ≤ xs.foldl max a := by
  induction xs generalizing a with
  | nil => exact le_refl a
  | cons x xs ih => exact le_trans (le_max_left a x) (ih (max a x))

lemma foldl_max_mem_le (xs : List ℚ) (a y : ℚ) (hy : y ∈ xs) : y ≤ xs.foldl max a := by
  induction xs generalizing a with
  | nil => simp at hy
  | cons x xs ih =>
    rcases List.mem_cons.mp hy with rfl | h
    · exact le_trans (le_max_right a y) (foldl_max_init_le xs (max a y))
    · exact ih (max a x) h

lemma listMax_ge (l : List ℚ) (y : ℚ) (hy : y ∈ l) : y ≤ listMax l := by
  cases l with
  | nil => simp at hy
  | cons x xs =>
    rcases List.mem_cons.mp hy with rfl | h
    · exact foldl_max_init_le xs y
    · exact foldl_max_mem_le xs x y h

lemma foldl_max_mem (xs : List ℚ) (a : ℚ) :
    xs.foldl max a = a ∨ xs.foldl max a ∈ xs := by
  induction xs generalizing a with
  | nil => exact Or.inl rfl
  | cons x xs ih =>
    rcases ih (max a x) with h | h
    · rcases le_total a x with hax | hax
      · rw [List.foldl_cons, h, max_eq_right hax]
        exact Or.inr (List.mem_cons_self x xs)
      · rw [List.foldl_cons, h, max_eq_left hax]
        exact Or.inl rfl
    · rw [List.foldl_cons]
      exact Or.inr (List.mem_cons_of_mem x h)

lemma listMax_mem (l : List ℚ) (h : l ≠ []) : listMax l ∈ l := by
  cases l with
  | nil => exact absurd rfl h
  | cons x xs =>
    rcases foldl_max_mem xs x with h1 | h1
    · show xs.foldl max x ∈ x :: xs
      rw [h1]
      exact List.mem_cons_self x xs
    · exact List.mem_cons_of_mem x h1

lemma listMin_lt_listMax (l : List ℚ) (a b : ℚ) (ha : a ∈ l) (hb : b ∈ l)
    (hab : a ≠ b) : listMin l < listMax l := by
  rcases lt_or_le (listMin l) (listMax l) with h | h
  · exact h
  · exfalso
    exact hab (le_antisymm
      (le_trans (listMax_ge l a ha) (le_trans h (listMin_le l b hb)))
      (le_trans (listMax_ge l b hb) (le_trans h (listMin_le l a ha))))

/-- C7: on a nonempty continuous column with nonzero interquartile range and
at least two distinct values, every value produced by the second stage
(min-max rescaling of the robust-scaled column) lies in [0, 1], and the
values 0 and 1 are both attained. -/
theorem continuous_scaler_range (l : List ℚ) (hne : l ≠ [])
    (hiqr : percentile l 75 - percentile l 25 ≠ 0)
    (a b : ℚ) (ha : a ∈ l) (hb : b ∈ l) (hab : a ≠ b) :
    (∀ v ∈ minMaxScale (robustScale l), 0 ≤ v ∧ v ≤ 1) ∧
    (0 : ℚ) ∈ minMaxScale (robustScale l) ∧
    (1 : ℚ) ∈ minMaxScale (robustScale l) := by
  have hs0 : handle_zeros (percentile l 75 - percentile l 25) ≠ 0 := by
    rw [handle_zeros, if_neg hiqr]
    exact hiqr
  have ha2 : (a - percentile l 50) / handle_zeros (percentile l 75 - percentile l 25)
      ∈ robustScale l := List.mem_map_of_mem _ ha
  have hb2 : (b - percentile l 50) / handle_zeros (percentile l 75 - percentile l 25)
      ∈ robustScale l := List.mem_map_of_mem _ hb
  have hab2 : (a - percentile l 50) / handle_zeros (percentile l 75 - percentile l 25)
      ≠ (b - percentile l 50) / handle_zeros (percentile l 75 - percentile l 25) := by
    intro he
    rw [div_eq_div_iff hs0 hs0] at he
    have hcancel := mul_right_cancel₀ hs0 he
    exact hab (by linarith)
  have hminmax : listMin (robustScale l) < listMax (robustScale l) :=
    listMin_lt_listMax _ _ _ ha2 hb2 hab2
  have hd : handle_zeros (listMax (robustScale l) - listMin (robustScale l))
      = listMax (robustScale l) - listMin (robustScale l) := by
    rw [handle_zeros, if_neg (sub_ne_zero_of_ne (ne_of_gt hminmax))]
  have hdpos : 0 < listMax (robustScale l) - listMin (robustScale l) :=
    sub_pos.mpr hminmax
  have hl2ne : robustScale l ≠ [] := by
    intro hnil
    rw [hnil] at ha2
    simp at ha2
  refine ⟨?_, ?_, ?_⟩
  · intro v hv
    obtain ⟨x, hx, rfl⟩ := List.mem_map.mp hv
    rw [hd]
    constructor
    · exact div_nonneg (sub_nonneg.mpr (listMin_le _ x hx)) (le_of_lt hdpos)
    · rw [div_le_one hdpos]
      exact sub_le_sub_right (listMax_ge _ x hx) _
  · refine List.mem_map.mpr ⟨listMin (robustScale l), listMin_mem _ hl2ne, ?_⟩
    rw [hd, sub_self, zero_div]
  · refine List.mem_map.mpr ⟨listMax (robustScale l), listMax_mem _ hl2ne, ?_⟩
    rw [hd, div_self (ne_of_gt hdpos)]

lemma percentileSorted_int (s : List ℚ) (q : ℚ) (k : ℕ)
    (hpos : ((s.length : ℚ) - 1) * q / 100 = (k : ℚ)) :
    percentileSorted s q = s.getD k 0 := by
  simp only [percentileSorted, hpos, Int.floor_natCast, Int.toNat_natCast]
  ring

/-- Witness for C7 at the concrete column [0, 1, 2, 3, 4]: its
interquartile range is 3 - 1 = 2 and the column has two distinct values. -/
theorem continuous_scaler_range_witness :
    (∀ v ∈ minMaxScale (robustScale [(0 : ℚ), 1, 2, 3, 4]), 0 ≤ v ∧ v ≤ 1) ∧
    (0 : ℚ) ∈ minMaxScale (robustScale [(0 : ℚ), 1, 2, 3, 4]) ∧
    (1 : ℚ) ∈ minMaxScale (robustScale [(0 : ℚ), 1, 2, 3, 4]) := by
  have hsort : List.insertionSort (fun a b => a ≤ b) [(0 : ℚ), 1, 2, 3, 4]
      = [0, 1, 2, 3, 4] := by
    norm_num [List.insertionSort, List.orderedInsert]
  have h75 : percentile [(0 : ℚ), 1, 2, 3, 4] 75 = 3 := by
    rw [percentile, hsort, percentileSorted_int _ _ 3 (by norm_num)]
    rfl
  have h25 : percentile [(0 : ℚ), 1, 2, 3, 4] 25 = 1 := by
    rw [percentile, hsort, percentileSorted_int _ _ 1 (by norm_num)]
    rfl
  exact continuous_scaler_range [(0 : ℚ), 1, 2, 3, 4] (by simp)
    (by rw [h75, h25]; norm_num) 0 1 (by simp) (by simp) (by norm_num)

lemma lookupCol_cons (p : String × Col) (df : Frame) (f : String) :
    lookupCol (p :: df) f = if p.1 = f then some p.2 else lookupCol df f := by
  by_cases h : p.1 = f
  · rw [if_pos h]
    unfold lookupCol
    rw [List.find?_cons_of_pos _ (by simp [h])]
    rfl
  · rw [if_neg h]
    unfold lookupCol
    rw [List.find?_cons_of_neg _ (by simp [h])]

lemma lookupCol_isSome_iff_mem (df : Frame) (f : String) :
    (lookupCol df f).isSome ↔ f ∈ df.map Prod.fst := by
  induction df with
  | nil => simp [lookupCol]
  | cons p df ih =>
    rw [lookupCol_cons]
    by_cases h : p.1 = f
    · simp [h]
    · simp only [List.map_cons, List.mem_cons, if_neg h, ih]
      constructor
      · exact Or.inr
      · rintro (hh | hh)
        · exact absurd hh.symm h
        · exact hh

lemma setCol_cons (p : String × Col) (df : Frame) (f : String) (c : Col) :
    setCol (p :: df) f c = (if p.1 == f then (p.1, c) else p) :: setCol df f c := rfl

lemma setCol_map_fst (df : Frame) (f : String) (c : Col) :
    (setCol df f c).map Prod.fst = df.map Prod.fst := by
  induction df with
  | nil => rfl
  | cons p df ih =>
    rw [setCol_cons, List.map_cons, List.map_cons, ih]
    by_cases h : p.1 = f
    · rw [if_pos (by simp [h])]
    · rw [if_neg (by simp [h])]

lemma lookupCol_setCol_self (df : Frame) (f : String) (c : Col)
    (h : f ∈ df.map Prod.fst) : lookupCol (setCol df f c) f = some c := by
  induction df with
  | nil => simp at h
  | cons p df ih =>
    rw [setCol_cons]
    by_cases hp : p.1 = f
    · rw [if_pos (by simp [hp]), lookupCol_cons, if_pos hp]
    · rw [if_neg (by simp [hp]), lookupCol_cons, if_neg hp]
      apply ih
      simp only [List.map_cons, List.mem_cons] at h
      rcases h with hh | hh
      · exact absurd (fun hx => hp hx) (by simp [hh])
      · exact hh

lemma lookupCol_setCol_ne (df : Frame) (f g : String) (c : Col) (h : g ≠ f) :
    lookupCol (setCol df f c) g = lookupCol df g := by
  induction df with
  | nil => rfl
  | cons p df ih =>
    rw [setCol_cons]
    by_cases hp : p.1 = f
    · rw [if_pos (by simp [hp]), lookupCol_cons, lookupCol_cons]
      have hg : ¬p.1 = g := by
        rw [hp]
        exact fun hh => h hh.symm
      rw [if_neg hg, if_neg hg]
      exact ih
    · rw [if_neg (by simp [hp]), lookupCol_cons, lookupCol_cons]
      by_cases hg : p.1 = g
      · rw [if_pos hg, if_pos hg]
      · rw [if_neg hg, if_neg hg]
        exact ih

lemma getNums_congr (d1 d2 : Frame) (f : String)
    (h : lookupCol d1 f = lookupCol d2 f) : getNums d1 f = getNums d2 f := by
  unfold getNums
  rw [h]

lemma lookupCol_append (l1 l2 : Frame) (f : String) :
    lookupCol (l1 ++ l2) f = (lookupCol l1 f).or (lookupCol l2 f) := by
  unfold lookupCol
  rw [List.find?_append]
  cases l1.find? (fun p => p.1 == f) <;> simp

lemma lookupCol_map_pairs (names : List String) (F : String → Col) (f : String)
    (h : f ∈ names) :
    lookupCol (names.map (fun g => (g, F g))) f = some (F f) := by
  induction names with
  | nil => simp at h
  | cons g names ih =>
    rw [List.map_cons, lookupCol_cons]
    by_cases hg : g = f
    · rw [if_pos (by simpa using hg), hg]
    · rw [if_neg (by simpa using hg)]
      refine ih ?_
      rcases List.mem_cons.mp h with hh | hh
      · exact absurd hh.symm hg
      · exact hh

lemma lookupCol_map_pairs_none (names : List String) (F : String → Col) (f : String)
    (h : f ∉ names) :
    lookupCol (names.map (fun g => (g, F g))) f = none := by
  induction names with
  | nil => rfl
  | cons g names ih =>
    rw [List.map_cons, lookupCol_cons]
    have hg : ¬g = f := fun hh => h (hh ▸ List.mem_cons_self g names)
    rw [if_neg (by simpa using hg)]
    exact ih (fun hh => h (List.mem_cons_of_mem g hh))

lemma map_pairs_fst {β : Type} (names : List String) (F : String → β) :
    (names.map (fun g => (g, F g))).map Prod.fst = names := by
  induction names with
  | nil => rfl
  | cons g names ih =>
    rw [List.map_cons, List.map_cons, ih]

lemma lookupCol_filter_not_cont (df : Frame) (f : String) (h : f ∉ cont_features) :
    lookupCol (df.filter (fun p => !(cont_features.contains p.1))) f
      = lookupCol df f := by
  induction df with
  | nil => rfl
  | cons p df ih =>
    rw [List.filter_cons]
    by_cases hp : p.1 = f
    · have hkeep : (!(cont_features.contains p.1)) = true := by
        simp [hp, h]
      rw [if_pos hkeep, lookupCol_cons, lookupCol_cons, if_pos hp, if_pos hp]
    · cases hq : (!(cont_features.contains p.1))
      · rw [if_neg (by simp), lookupCol_cons, if_neg hp]
        exact ih
      · rw [if_pos rfl, lookupCol_cons, lookupCol_cons, if_neg hp, if_neg hp]
        exact ih

lemma lookupCol_filter_cont (df : Frame) (f : String) (h : f ∈ cont_features) :
    lookupCol (df.filter (fun p => !(cont_features.contains p.1))) f = none := by
  induction df with
  | nil => rfl
  | cons p df ih =>
    rw [List.filter_cons]
    cases hq : (!(cont_features.contains p.1))
    · rw [if_neg (by simp)]
      exact ih
    · rw [if_pos rfl, lookupCol_cons]
      have hp : ¬p.1 = f := by
        intro hh
        rw [hh] at hq
        simp [h] at hq
      rw [if_neg hp]
      exact ih

lemma mapStep_cons (f : String) (rest : List String) (df : Frame) :
    mapStep (f :: rest) df
      = (lookupCol df f).bind
          (fun c => mapStep rest (setCol df f (Col.opts (mapVals (mapFor f c) c)))) := by
  unfold mapStep
  rw [List.foldlM_cons]
  cases lookupCol df f <;> rfl

lemma mapStep_spec (enum : List String) (df : Frame)
    (hpres : ∀ f ∈ enum, f ∈ df.map Prod.fst) :
    ∃ d1, mapStep enum df = some d1 ∧
      d1.map Prod.fst = df.map Prod.fst ∧
      (∀ g, g ∉ enum → lookupCol d1 g = lookupCol df g) ∧
      (enum.Nodup → ∀ f c, f ∈ enum → lookupCol df f = some c →
        lookupCol d1 f = some (Col.opts (mapVals (mapFor f c) c))) := by
  induction enum generalizing df with
  | nil =>
    exact ⟨df, rfl, rfl, fun g _ => rfl, fun _ f c hf => absurd hf (List.not_mem_nil f)⟩
  | cons f rest ih =>
    have hf : f ∈ df.map Prod.fst := hpres f (List.mem_cons_self f rest)
    obtain ⟨c0, hc0⟩ := Option.isSome_iff_exists.mp
      ((lookupCol_isSome_iff_mem df f).mpr hf)
    have hpres' : ∀ g ∈ rest, g ∈ (setCol df f
        (Col.opts (mapVals (mapFor f c0) c0))).map Prod.fst := by
      intro g hg
      rw [setCol_map_fst]
      exact hpres g (List.mem_cons_of_mem f hg)
    obtain ⟨d1, hstep, hnames, hun, ht⟩ := ih _ hpres'
    refine ⟨d1, ?_, ?_, ?_, ?_⟩
    · rw [mapStep_cons, hc0]
      exact hstep
    · rw [hnames, setCol_map_fst]
    · intro g hg
      have hgf : g ≠ f := fun he => hg (he ▸ List.mem_cons_self f rest)
      have hgrest : g ∉ rest := fun hh => hg (List.mem_cons_of_mem f hh)
      rw [hun g hgrest, lookupCol_setCol_ne df f g _ hgf]
    · intro hnd g c hg hc
      rcases List.mem_cons.mp hg with rfl | hgrest
      · have hfrest : g ∉ rest := (List.nodup_cons.mp hnd).1
        rw [hun g hfrest, lookupCol_setCol_self df g _ hf]
        rw [hc0] at hc
        injection hc with hcc
        rw [hcc]
      · have hgf : g ≠ f := fun he => (List.nodup_cons.mp hnd).1 (he ▸ hgrest)
        refine ht (List.nodup_cons.mp hnd).2 g c hgrest ?_
        rw [lookupCol_setCol_ne df f g _ hgf]
        exact hc

lemma mapM_getNums (df : Frame) (names : List String)
    (h : ∀ f ∈ names, (getNums df f).isSome) :
    names.mapM (fun f => (getNums df f).map (fun vs => (f, vs)))
      = some (names.map (fun f => (f, (getNums df f).getD []))) := by
  induction names with
  | nil => rfl
  | cons f names ih =>
    rw [List.mapM_cons]
    obtain ⟨vs, hvs⟩ := Option.isSome_iff_exists.mp (h f (List.mem_cons_self _ _))
    rw [hvs, ih (fun g hg => h g (List.mem_cons_of_mem f hg))]
    simp [hvs]

lemma scaleStep_spec (d : Frame) (hc : ∀ f ∈ cont_features, (getNums d f).isSome) :
    ∃ d2, scaleStep d = some d2 ∧
      d2.map Prod.fst
        = (d.filter (fun p => !(cont_features.contains p.1))).map Prod.fst
          ++ cont_features ∧
      (∀ g, g ∉ cont_features → lookupCol d2 g = lookupCol d g) ∧
      (∀ f, f ∈ cont_features →
        lookupCol d2 f
          = some (Col.nums (minMaxScale (robustScale ((getNums d f).getD []))))) := by
  have hform : scaleStep d
      = some (d.filter (fun p => !(cont_features.contains p.1))
          ++ cont_features.map (fun f =>
              (f, Col.nums (minMaxScale (robustScale ((getNums d f).getD [])))))) := by
    rw [scaleStep, mapM_getNums d cont_features hc]
    simp [List.map_map, Function.comp]
  refine ⟨_, hform, ?_, ?_, ?_⟩
  · rw [List.map_append, map_pairs_fst]
  · intro g hg
    rw [lookupCol_append, lookupCol_filter_not_cont d g hg,
      lookupCol_map_pairs_none _ _ g hg, Option.or_none]
  · intro f hf
    rw [lookupCol_append, lookupCol_filter_cont d f hf, Option.none_or,
      lookupCol_map_pairs _ _ f hf]

lemma labelStep_spec (d : Frame) (h : labelField ∈ d.map Prod.fst) :
    ∃ d3, labelStep d = some d3 ∧
      d3.map Prod.fst = d.map Prod.fst ∧
      (∀ g, g ≠ labelField → lookupCol d3 g = lookupCol d g) ∧
      lookupCol d3 labelField
        = some (Col.opts (mapVals labelMap
            ((lookupCol d labelField).getD (Col.strs [])))) := by
  obtain ⟨c, hc⟩ := Option.isSome_iff_exists.mp
    ((lookupCol_isSome_iff_mem d labelField).mpr h)
  refine ⟨setCol d labelField (Col.opts (mapVals labelMap c)), ?_, ?_, ?_, ?_⟩
  · rw [labelStep, hc]
    rfl
  · exact setCol_map_fst d labelField _
  · intro g hg
    exact lookupCol_setCol_ne d labelField g _ hg
  · rw [lookupCol_setCol_self d labelField _ h, hc]
    rfl

lemma selectCols_spec (d : Frame) (names : List String)
    (h : ∀ f ∈ names, (lookupCol d f).isSome) :
    selectCols d names
      = some (names.map (fun f => (f, (lookupCol d f).getD (Col.strs [])))) := by
  induction names with
  | nil => rfl
  | cons f names ih =>
    unfold selectCols at ih ⊢
    rw [List.mapM_cons]
    obtain ⟨c, hc⟩ := Option.isSome_iff_exists.mp (h f (List.mem_cons_self _ _))
    rw [hc, ih (fun g hg => h g (List.mem_cons_of_mem f hg))]
    simp [hc]

lemma selectCols_names (d : Frame) (names : List String) (out : Frame)
    (h : selectCols d names = some out) : out.map Prod.fst = names := by
  induction names generalizing out with
  | nil =>
    unfold selectCols at h
    simp only [List.mapM_nil] at h
    injection h with hh
    rw [← hh]
    rfl
  | cons f names ih =>
    unfold selectCols at h ih
    rw [List.mapM_cons] at h
    rcases hf : lookupCol d f with _ | c
    · rw [hf] at h
      simp at h
    · rw [hf] at h
      rcases hrest : names.mapM (fun g => (lookupCol d g).map (fun c => (g, c)))
        with _ | rest
      · rw [hrest] at h
        simp at h
      · rw [hrest] at h
        simp at h
        rw [← h, List.map_cons, ih rest hrest]

lemma preprocess_spec (df : Frame) (enum : List String)
    (hnd : enum.Nodup)
    (hen : ∀ f ∈ enum, f ∈ df.map Prod.fst ∧ f ∉ cont_features ∧ f ≠ labelField)
    (hc : ∀ f ∈ cont_features, (getNums df f).isSome)
    (hy : labelField ∈ df.map Prod.fst) :
    ∃ out, preprocess enum df = some out ∧
      out.map Prod.fst = enum ++ cont_features ++ [labelField] ∧
      (∀ f c, f ∈ enum → lookupCol df f = some c →
        lookupCol out f = some (Col.opts (mapVals (mapFor f c) c))) ∧
      (∀ f, f ∈ cont_features →
        lookupCol out f
          = some (Col.nums (minMaxScale (robustScale ((getNums df f).getD []))))) ∧
      lookupCol out labelField
        = some (Col.opts (mapVals labelMap
            ((lookupCol df labelField).getD (Col.strs [])))) := by
  have hylab : labelField ∉ cont_features := by decide
  have hyen : labelField ∉ enum := fun he => (hen labelField he).2.2 rfl
  obtain ⟨d1, h1, h1names, h1un, h1t⟩ := mapStep_spec enum df
    (fun f hf => (hen f hf).1)
  have hcont_enum : ∀ f ∈ cont_features, f ∉ enum :=
    fun f hf he => (hen f he).2.1 hf
  have hc1 : ∀ f ∈ cont_features, (getNums d1 f).isSome := by
    intro f hf
    rw [getNums_congr d1 df f (h1un f (hcont_enum f hf))]
    exact hc f hf
  obtain ⟨d2, h2, h2names, h2un, h2t⟩ := scaleStep_spec d1 hc1
  have hlab1 : lookupCol d1 labelField = lookupCol df labelField := h1un _ hyen
  have hlab2 : lookupCol d2 labelField = lookupCol df labelField := by
    rw [h2un labelField hylab, hlab1]
  have hy2 : labelField ∈ d2.map Prod.fst := by
    rw [← lookupCol_isSome_iff_mem, hlab2, lookupCol_isSome_iff_mem]
    exact hy
  obtain ⟨d3, h3, h3names, h3un, h3t⟩ := labelStep_spec d2 hy2
  have henum3 : ∀ f c, f ∈ enum → lookupCol df f = some c →
      lookupCol d3 f = some (Col.opts (mapVals (mapFor f c) c)) := by
    intro f c hf hcdf
    have hfl : f ≠ labelField := (hen f hf).2.2
    have hfc : f ∉ cont_features := (hen f hf).2.1
    rw [h3un f hfl, h2un f hfc]
    exact h1t hnd f c hf hcdf
  have hcont3 : ∀ f, f ∈ cont_features →
      lookupCol d3 f
        = some (Col.nums (minMaxScale (robustScale ((getNums df f).getD [])))) := by
    intro f hf
    have hfl : f ≠ labelField := fun he => hylab (he ▸ hf)
    rw [h3un f hfl, h2t f hf, getNums_congr d1 df f (h1un f (hcont_enum f hf))]
  have hlab3 : lookupCol d3 labelField
      = some (Col.opts (mapVals labelMap
          ((lookupCol df labelField).getD (Col.strs [])))) := by
    rw [h3t, hlab2]
  have hpres3 : ∀ f ∈ enum ++ cont_features ++ [labelField],
      (lookupCol d3 f).isSome := by
    intro f hf
    rcases List.mem_append.mp hf with hf2 | hf2
    · rcases List.mem_append.mp hf2 with hfe | hfc
      · obtain ⟨c, hcdf⟩ := Option.isSome_iff_exists.mp
          ((lookupCol_isSome_iff_mem df f).mpr (hen f hfe).1)
        rw [henum3 f c hfe hcdf]
        rfl
      · rw [hcont3 f hfc]
        rfl
    · have hfl : f = labelField := by simpa using hf2
      rw [hfl, hlab3]
      rfl
  have hsel : selectCols d3 (enum ++ cont_features ++ [labelField])
      = some ((enum ++ cont_features ++ [labelField]).map
          (fun f => (f, (lookupCol d3 f).getD (Col.strs [])))) :=
    selectCols_spec d3 _ hpres3
  refine ⟨(enum ++ cont_features ++ [labelField]).map
    (fun f => (f, (lookupCol d3 f).getD (Col.strs []))), ?_, ?_, ?_, ?_, ?_⟩
  · show preprocess enum df = _
    rw [preprocess, h1]
    simp only [Option.bind_eq_bind, Option.some_bind]
    rw [h2]
    simp only [Option.bind_eq_bind, Option.some_bind]
    rw [h3]
    simp only [Option.bind_eq_bind, Option.some_bind]
    exact hsel
  · rw [map_pairs_fst]
  · intro f c hfe hcdf
    rw [lookupCol_map_pairs _ _ f
      (List.mem_append.mpr (Or.inl (List.mem_append.mpr (Or.inl hfe))))]
    rw [henum3 f c hfe hcdf]
    rfl
  · intro f hfc
    rw [lookupCol_map_pairs _ _ f
      (List.mem_append.mpr (Or.inl (List.mem_append.mpr (Or.inr hfc))))]
    rw [hcont3 f hfc]
    rfl
  · rw [lookupCol_map_pairs _ _ labelField
      (List.mem_append.mpr (Or.inr (List.mem_cons_self _ _)))]
    rw [hlab3]
    rfl

/-- C6: the continuous columns of the processed frame are obtained by the
robust stage (subtract column median, divide by column interquartile range,
per column independently) followed by min-max rescaling fitted on the
stage-one output, both fitted and applied on each entire continuous column
of the full table inside `preprocess` — before `get_dataset` performs any
split — and the continuous column names appear in the output in their
original `cont_features` order, after the categorical block and before the
label. -/
theorem continuous_scaling_pipeline (df : Frame) (enum : List String)
    (hnd : enum.Nodup)
    (hen : ∀ f ∈ enum, f ∈ df.map Prod.fst ∧ f ∉ cont_features ∧ f ≠ labelField)
    (hc : ∀ f ∈ cont_features, (getNums df f).isSome)
    (hy : labelField ∈ df.map Prod.fst) :
    ∃ out, preprocess enum df = some out ∧
      out.map Prod.fst = enum ++ cont_features ++ [labelField] ∧
      (∀ f vs, f ∈ cont_features → getNums df f = some vs →
        lookupCol out f = some (Col.nums (minMaxScale (robustScale vs)))) := by
  obtain ⟨out, h0, h1, _, h3, _⟩ := preprocess_spec df enum hnd hen hc hy
  refine ⟨out, h0, h1, ?_⟩
  intro f vs hf hvs
  have hcol := h3 f hf
  rw [hvs] at hcol
  simpa using hcol

/-- Witness for C6 at the concrete two-row `exampleFrame` with the
enumeration [month, job]. -/
theorem continuous_scaling_pipeline_witness :
    ∃ out, preprocess ["month", "job"] exampleFrame = some out ∧
      out.map Prod.fst = ["month", "job"] ++ cont_features ++ [labelField] ∧
      (∀ f vs, f ∈ cont_features → getNums exampleFrame f = some vs →
        lookupCol out f = some (Col.nums (minMaxScale (robustScale vs)))) :=
  continuous_scaling_pipeline exampleFrame ["month", "job"]
    (by decide) (by decide) (by decide) (by decide)

/-- C9: the fitted month dict domain is exactly the 11-entry `month_list`,
from which the September abbreviation is absent; and for every well-formed
input table whose month column is among the mapped categorical fields,
`preprocess` does not fail: it returns a frame whose month column is the
raw column mapped through the dict, so every raw value outside the list
(in particular sep) is silently replaced by the missing value `none` (NaN)
at its row position instead of raising an error. -/
theorem month_sep_silently_nan :
    ("sep" : String) ∉ month_list ∧
    month_list.length = 11 ∧
    (∀ m, (monthMap m).isSome ↔ m ∈ month_list) ∧
    (∀ (df : Frame) (enum : List String) (vals : List String),
      enum.Nodup →
      (∀ f ∈ enum, f ∈ df.map Prod.fst ∧ f ∉ cont_features ∧ f ≠ labelField) →
      (∀ f ∈ cont_features, (getNums df f).isSome) →
      labelField ∈ df.map Prod.fst →
      monthField ∈ enum →
      lookupCol df monthField = some (Col.strs vals) →
      ∃ out, preprocess enum df = some out ∧
        lookupCol out monthField
          = some (Col.opts (vals.map (fun v => (monthMap v).map (fun n => (n : ℚ))))) ∧
        (∀ i v, vals.get? i = some v → v ∉ month_list →
          (vals.map (fun v => (monthMap v).map (fun n => (n : ℚ)))).get? i
            = some none)) := by
  refine ⟨by decide, by decide, fun m => indexOf?_isSome_iff_mem month_list m, ?_⟩
  intro df enum vals hnd hen hc hy hmen hmcol
  obtain ⟨out, h0, _, h2, _, _⟩ := preprocess_spec df enum hnd hen hc hy
  have hcol := h2 monthField (Col.strs vals) hmen hmcol
  rw [show mapFor monthField (Col.strs vals) = monthMap from by simp [mapFor]]
    at hcol
  refine ⟨out, h0, hcol, ?_⟩
  intro i v hv hvm
  rw [List.get?_map, hv]
  simp [monthMap_not_mem v hvm]

/-- Witness for C9 at the concrete two-row `exampleFrame`, whose month
column is [jan, sep]: preprocessing succeeds and position 1 (the sep row)
of the processed month column is `none`. -/
theorem month_sep_silently_nan_witness :
    ∃ out, preprocess ["month", "job"] exampleFrame = some out ∧
      lookupCol out monthField
        = some (Col.opts ((["jan", "sep"] : List String).map
            (fun v => (monthMap v).map (fun n => (n : ℚ))))) ∧
      (∀ i v, (["jan", "sep"] : List String).get? i = some v → v ∉ month_list →
        ((["jan", "sep"] : List String).map
            (fun v => (monthMap v).map (fun n => (n : ℚ)))).get? i = some none) :=
  month_sep_silently_nan.2.2.2 exampleFrame ["month", "job"] ["jan", "sep"]
    (by decide) (by decide) (by decide) (by decide) (by decide) (by decide)

/-- C10: the categorical-feature list computed by set difference is
determined by the input only up to membership. Any two admissible
enumerations are permutations of each other; the processed column order is
the enumeration followed by the continuous fields and the label; and on a
concrete frame two admissible enumerations produce processed frames whose
column orders differ while being permutations of each other. -/
theorem cate_order_unspecified :
    (∀ df : Frame, ∀ e1 e2 : List String,
      validCate df e1 → validCate df e2 → e1.Perm e2) ∧
    (∀ (enum : List String) (df out : Frame), preprocess enum df = some out →
      out.map Prod.fst = enum ++ cont_features ++ [labelField]) ∧
    (validCate exampleFrame ["month", "job"] ∧
      validCate exampleFrame ["job", "month"] ∧
      ∃ out1 out2,
        preprocess ["month", "job"] exampleFrame = some out1 ∧
        preprocess ["job", "month"] exampleFrame = some out2 ∧
        out1.map Prod.fst ≠ out2.map Prod.fst ∧
        (out1.map Prod.fst).Perm (out2.map Prod.fst)) := by
  refine ⟨?_, ?_, by unfold validCate; decide, by unfold validCate; decide, ?_⟩
  · rintro df e1 e2 ⟨h1nd, h1a, h1b⟩ ⟨h2nd, h2a, h2b⟩
    apply List.perm_of_nodup_nodup_toFinset_eq h1nd h2nd
    ext a
    simp only [List.mem_toFinset]
    constructor
    · intro ha
      obtain ⟨hm, hcf, hlf⟩ := h1a a ha
      exact h2b a hm hcf hlf
    · intro ha
      obtain ⟨hm, hcf, hlf⟩ := h2a a ha
      exact h1b a hm hcf hlf
  · intro enum df out h
    rw [preprocess] at h
    simp only [Option.bind_eq_bind, Option.bind_eq_some] at h
    obtain ⟨d1, _, d2, _, d3, _, hsel⟩ := h
    exact selectCols_names d3 _ out hsel
  · obtain ⟨out1, ho1, hn1, _, _, _⟩ := preprocess_spec exampleFrame
      ["month", "job"] (by decide) (by decide) (by decide) (by decide)
    obtain ⟨out2, ho2, hn2, _, _, _⟩ := preprocess_spec exampleFrame
      ["job", "month"] (by decide) (by decide) (by decide) (by decide)
    refine ⟨out1, out2, ho1, ho2, ?_, ?_⟩
    · rw [hn1, hn2]
      decide
    · rw [hn1, hn2]
      exact List.Perm.append_right _ (List.Perm.append_right _ (List.Perm.swap _ _ _))

/-- Witness for C10: the two admissible enumerations of the example frame
are permutations of each other. -/
theorem cate_order_unspecified_witness :
    (["month", "job"] : List String).Perm ["job", "month"] :=
  cate_order_unspecified.1 exampleFrame ["month", "job"] ["job", "month"]
    (by unfold validCate; decide) (by unfold validCate; decide)

/-- C8: for every index strictly below the dataset length, `__getitem__`
returns a record whose categorical values number exactly the configured
categorical-field-list length, whose continuous values number exactly the
continuous-field-list length, together with the label value of that row;
and `__getitem__` at the dataset length itself fails with the
index-out-of-range error. -/
theorem bank_dataset_getitem {α : Type} (ds : BankDataset α) (idx : ℕ) :
    (idx < ds.len → ∃ s, ds.getitem idx = some s ∧
      s.cate_features.length = ds.cate_features.length ∧
      s.cont_features.length = ds.cont_features.length ∧
      (∃ row, ds.file.get? idx = some row ∧ s.labels = rowLookup row labelField)) ∧
    ds.getitem ds.len = none := by
  constructor
  · intro h
    have hrow : ds.file.get? idx = some (ds.file.get ⟨idx, h⟩) :=
      List.get?_eq_get h
    refine ⟨Sample.mk
        (ds.cate_features.map (fun f => (f, rowLookup (ds.file.get ⟨idx, h⟩) f)))
        (ds.cont_features.map (fun f => (f, rowLookup (ds.file.get ⟨idx, h⟩) f)))
        (rowLookup (ds.file.get ⟨idx, h⟩) labelField),
      ?_, ?_, ?_, ⟨ds.file.get ⟨idx, h⟩, hrow, rfl⟩⟩
    · rw [BankDataset.getitem, hrow]
      rfl
    · simp
    · simp
  · rw [BankDataset.getitem,
      List.get?_eq_none.mpr (show ds.file.length ≤ ds.len from le_refl _)]
    rfl

/-- Witness for C8 at a concrete one-row dataset, at index 0 and at the
length itself. -/
theorem bank_dataset_getitem_witness :
    (∃ s, exampleDataset.getitem 0 = some s ∧
      s.cate_features.length = exampleDataset.cate_features.length ∧
      s.cont_features.length = exampleDataset.cont_features.length ∧
      (∃ row, exampleDataset.file.get? 0 = some row ∧
        s.labels = rowLookup row labelField)) ∧
    exampleDataset.getitem exampleDataset.len = none :=
  ⟨(bank_dataset_getitem exampleDataset 0).1 (by decide),
   (bank_dataset_getitem exampleDataset 0).2⟩
